import Mathlib

/-!
# Verification of the attention-weight aggregation engine

Shallow embedding of the aggregation and smoothing logic of
`scripts/attention_weights.py` (functions `extract_data` and `visualize`).

Modelling conventions:
* atomic numbers (`batch.z` entries) are `ℕ`;
* attention weights and distances are exact rationals `ℚ` (the float
  arithmetic of the source is modelled exactly; every division performed by
  the source is mirrored by a `ℚ` division);
* `torch.unique` on a flat tensor is modelled by sorting the deduplicated
  value list ascending (torch returns the distinct values in sorted order);
* `torch.unique(·, dim=1)` on a 2×N tensor of ordered pairs is modelled by
  sorting the distinct pairs in lexicographic column order (`pairLE`);
* a tensor `reshape` that can fail is modelled by an explicit length check in
  `aggregate`, which returns `Except AggError` (`shapeError` for the failed
  `reshape` at line 127, `keyError` for the `z2idx[z]` lookup at line 142);
* `NaN` cells produced by `pandas.rolling/shift` are modelled by `Option ℚ`.
-/

namespace AttnWeights

/-- One attention edge: `(z[rollout_index[0][k]], z[rollout_index[1][k]])`
together with its rollout attention weight and interatomic distance
(lines 110-121 of the source). -/
structure Edge where
  src : ℕ
  tgt : ℕ
  attn : ℚ
  dist : ℚ
deriving DecidableEq, Repr

/-- `zs_full.unique()`: the ascending list of distinct element ids occurring
in either row of the stacked 2×N tensor of attention-edge endpoints
(line 124-125: `zs_full = torch.stack([cat zs_0, cat zs_1])`). -/
def elemSet (edges : List Edge) : List ℕ :=
  (((edges.map Edge.src) ++ (edges.map Edge.tgt)).dedup).insertionSort (· ≤ ·)

/-- `n_elements = len(zs_full.unique())` (line 125). -/
def nElems (edges : List Edge) : ℕ := (elemSet edges).length

/-- Lexicographic order on ordered element pairs: the order in which
`torch.unique(zs_full, dim=1)` returns the distinct columns (line 126). -/
def pairLE (p q : ℕ × ℕ) : Prop :=
  p.1 < q.1 ∨ (p.1 = q.1 ∧ p.2 ≤ q.2)

instance : DecidableRel pairLE := fun p q =>
  inferInstanceAs (Decidable (p.1 < q.1 ∨ (p.1 = q.1 ∧ p.2 ≤ q.2)))

instance : IsTrans (ℕ × ℕ) pairLE where
  trans p q r hpq hqr := by
    rcases hpq with h | ⟨h1, h2⟩ <;> rcases hqr with h' | ⟨h1', h2'⟩ <;>
      [left; left; left; right] <;> omega

instance : IsAntisymm (ℕ × ℕ) pairLE where
  antisymm p q hpq hqp := by
    rcases p with ⟨a, b⟩; rcases q with ⟨c, d⟩
    rcases hpq with h | ⟨h1, h2⟩ <;> rcases hqp with h' | ⟨h1', h2'⟩ <;>
      simp_all <;> omega

instance : IsTotal (ℕ × ℕ) pairLE where
  total p q := by
    rcases p with ⟨a, b⟩; rcases q with ⟨c, d⟩
    unfold pairLE
    rcases Nat.lt_trichotomy a c with h | h | h
    · left; left; exact h
    · rcases Nat.le_total b d with h' | h'
      · left; right; exact ⟨h, h'⟩
      · right; right; exact ⟨h.symm, h'⟩
    · right; left; exact h

/-- Position of the first occurrence of `a` in `l` (the index an exact
lookup table such as `z2idx`, or `return_inverse`, associates to a value). -/
def posIn {α : Type} [DecidableEq α] : List α → α → ℕ
  | [], _ => 0
  | x :: xs, a => if x = a then 0 else posIn xs a + 1

/-- The ordered element pair of each attention edge, in edge order
(the columns of `zs_full`). -/
def edgePairs (edges : List Edge) : List (ℕ × ℕ) :=
  edges.map fun e => (e.src, e.tgt)

/-- `zs, index = torch.unique(zs_full, dim=1, return_inverse=True)` (line 126):
the distinct ordered pairs in ascending lexicographic order. -/
def aggPairs (edges : List Edge) : List (ℕ × ℕ) :=
  ((edgePairs edges).dedup).insertionSort pairLE

/-- The inverse index of an edge: the position of its ordered pair inside
`aggPairs` (the entry of `index` for that edge, line 126). -/
def edgeIndex (edges : List Edge) (e : Edge) : ℕ :=
  posIn (aggPairs edges) (e.src, e.tgt)

/-- `scatter(attn_full, index=index, dim=0, reduce='mean')` (line 132):
bucket `g` receives the arithmetic mean of the attention weights of the
edges whose inverse index is `g`. -/
def scatterMean (edges : List Edge) (g : ℕ) : ℚ :=
  let grp := edges.filter fun e => decide (edgeIndex edges e = g)
  (grp.map Edge.attn).sum / (grp.length : ℚ)

/-- `attn.reshape(n_elements, n_elements)` (line 133): row-major indexing of
the scatter output. -/
def attnMatrix (edges : List Edge) (i j : ℕ) : ℚ :=
  scatterMean edges (i * nElems edges + j)

/-- The pickled `zs` value: `zs.reshape(2, n, n)[1, 0]` (lines 127-128), i.e.
the second components of the first `n` lexicographically sorted pairs. -/
def savedZs (edges : List Edge) : List ℕ :=
  ((aggPairs edges).take (nElems edges)).map Prod.snd

/-- `zs_ref, counts_ref = torch.unique(zs_ref, dim=1, return_counts=True)`
(line 137): the distinct reference pairs in lexicographic order. -/
def refPairsList (refs : List (ℕ × ℕ)) : List (ℕ × ℕ) :=
  (refs.dedup).insertionSort pairLE

/-- The entry of `counts_ref` belonging to a distinct column `p` of `zs_ref`
(line 137, `return_counts=True`): the number of occurrences of `p`. -/
def countPair (refs : List (ℕ × ℕ)) (p : ℕ × ℕ) : ℕ :=
  (refs.filter fun q => decide (q = p)).length

/-- `counts_ref[zs_ref[0] == elem].sum()` (line 140): the sum of the
occurrence counts of the distinct reference pairs whose source is `s`. -/
def srcTotal (refs : List (ℕ × ℕ)) (s : ℕ) : ℚ :=
  (((refPairsList refs).filter fun q => decide (q.1 = s)).map
    fun q => (countPair refs q : ℚ)).sum

/-- A reference pair's normalized count after the in-place division loop of
lines 139-140: its occurrence count divided by the total for its source. -/
def normCount (refs : List (ℕ × ℕ)) (p : ℕ × ℕ) : ℚ :=
  (countPair refs p : ℚ) / srcTotal refs p.1

/-- `z2idx` (line 141): position of an element id in the sorted element set. -/
def z2idx (edges : List Edge) (z : ℕ) : ℕ :=
  posIn (elemSet edges) z

/-- `counts_ref_square` (lines 143-144): a zero-initialised `n × n` matrix
receiving `counts_ref` at the translated indices
`(z2idx p.1, z2idx p.2)` of each distinct reference pair `p`.  (After the
`keyCheck` below the translated index map is injective, so the cell `(i, j)`
holds the normalized count of the unique pair written there, or the initial
`0` when no reference pair is written there.) -/
def bondCell (edges : List Edge) (refs : List (ℕ × ℕ)) (i j : ℕ) : ℚ :=
  match (refPairsList refs).find? fun p =>
      decide (z2idx edges p.1 = i) && decide (z2idx edges p.2 = j) with
  | some p => normCount refs p
  | none => 0

/-- The pickled `zs_ref` value: `zs_ref[0].unique()` (line 145), the sorted
distinct source elements of the reference edges. -/
def refSrcElems (refs : List (ℕ × ℕ)) : List ℕ :=
  ((refs.map Prod.fst).dedup).insertionSort (· ≤ ·)

/-- One step of the `atoms_per_elem` accumulation (lines 116-119): for every
element of the batch, add the number of its occurrences in `batch.z`.
(The source only touches keys present in the batch; for absent elements the
added count is `0`, so the dictionary is the same finitely-supported map.) -/
def addBatchCounts (acc : ℕ → ℕ) (zs : List ℕ) : ℕ → ℕ :=
  fun e => acc e + zs.count e

/-- The final `atoms_per_elem` mapping after folding all batches. -/
def atomsPerElem (batchAtoms : List (List ℕ)) : ℕ → ℕ :=
  batchAtoms.foldl addBatchCounts fun _ => 0

/-- The two ways the aggregation can raise: the failed
`zs.reshape(2, n_elements, n_elements)` at line 127, and the `z2idx[z]`
`KeyError` at line 142. -/
inductive AggError where
  | shapeError
  | keyError
deriving DecidableEq, Repr

/-- The pickled aggregate record (line 151), restricted to the derived
aggregates (the raw arrays are the inputs themselves). -/
structure AggResult where
  elems : List ℕ
  attn : ℕ → ℕ → ℚ
  refElems : List ℕ
  bond : ℕ → ℕ → ℚ
  atomCounts : ℕ → ℕ

/-- The `z2idx[z]` lookups of line 142 succeed exactly when every element id
occurring in a reference edge also occurs in some attention edge. -/
def keyCheck (edges : List Edge) (refs : List (ℕ × ℕ)) : Bool :=
  refs.all fun p => decide (p.1 ∈ elemSet edges) && decide (p.2 ∈ elemSet edges)

/-- The whole aggregation pass of `extract_data` (lines 124-151) on
already-collected per-edge data: fails with `shapeError` when the distinct
ordered pairs do not fill the `n × n` square, then with `keyError` when a
reference element is missing from the attention vocabulary, and otherwise
produces all derived aggregates. -/
def aggregate (edges : List Edge) (refs : List (ℕ × ℕ))
    (batchAtoms : List (List ℕ)) : Except AggError AggResult :=
  if (aggPairs edges).length = nElems edges * nElems edges then
    if keyCheck edges refs then
      .ok ⟨savedZs edges, attnMatrix edges, refSrcElems refs,
        bondCell edges refs, atomsPerElem batchAtoms⟩
    else .error .keyError
  else .error .shapeError

/-- The element-pair mask of line 214: both directed orderings of the chosen
unordered pair `{z1, z2}`. -/
def pairMask (z1 z2 : ℕ) (e : Edge) : Bool :=
  (e.src == z1 && e.tgt == z2) || (e.src == z2 && e.tgt == z1)

/-- `attn_full[mask]` / `dist[mask]`: the edges selected by the mask. -/
def selectPairs (edges : List Edge) (z1 z2 : ℕ) : List Edge :=
  edges.filter (pairMask z1 z2)

/-- The contract of `dist[mask].argsort()` (line 220) with the default
`stable=False`: any permutation of the positions that makes the distances
nondecreasing.  Stability is NOT part of the contract. -/
def IsArgsort (ds : List ℚ) (p : List ℕ) : Prop :=
  p.Perm (List.range ds.length) ∧ (p.map fun k => ds.getD k 0).Sorted (· ≤ ·)

/-- Sum of the `w` consecutive samples starting at position `start`. -/
def windowSum (xs : List ℚ) (start w : ℕ) : ℚ :=
  ((xs.drop start).take w).sum

/-- `pd.Series(xs).rolling(w).mean()` at position `j`: the right-aligned mean
of the `w` samples ending at `j`, `NaN` (`none`) while fewer than `w`
samples are available. -/
def rollingMeanRA (xs : List ℚ) (w j : ℕ) : Option ℚ :=
  if w ≤ j + 1 then some (windowSum xs (j + 1 - w) w / (w : ℚ)) else none

/-- `pd.Series(xs).rolling(w).mean().shift(-w)` (line 220): position `i` of
the output holds the rolling mean at position `i + w`, `NaN` (`none`) once
`i + w` falls off the end. -/
def smoothShift (xs : List ℚ) (w : ℕ) : List (Option ℚ) :=
  (List.range xs.length).map fun i =>
    if i + w < xs.length then rollingMeanRA xs w (i + w) else none

/-! ### Basic facts about `posIn` -/

theorem posIn_lt_length {α : Type} [DecidableEq α] {l : List α} {a : α}
    (h : a ∈ l) : posIn l a < l.length := by
  induction l with
  | nil => cases h
  | cons x xs ih =>
    by_cases hx : x = a
    · simp [posIn, hx]
    · rcases List.mem_cons.1 h with h' | h'
      · exact absurd h'.symm hx
      · simpa [posIn, hx, Nat.succ_lt_succ_iff] using ih h'

theorem getElem_posIn {α : Type} [DecidableEq α] {l : List α} {a : α}
    (h : a ∈ l) (h' : posIn l a < l.length) : l[posIn l a] = a := by
  induction l with
  | nil => cases h
  | cons x xs ih =>
    by_cases hx : x = a
    · simp [posIn, hx]
    · rcases List.mem_cons.1 h with h'' | h''
      · exact absurd h''.symm hx
      · have hlt : posIn xs a < xs.length := posIn_lt_length h''
        simpa [posIn, hx] using ih h'' hlt

theorem posIn_getElem {α : Type} [DecidableEq α] {l : List α}
    (H : l.Nodup) {i : ℕ} (h : i < l.length) : posIn l l[i] = i := by
  induction l generalizing i with
  | nil => simp at h
  | cons x xs ih =>
    rcases List.nodup_cons.1 H with ⟨hx, hxs⟩
    cases i with
    | zero => simp [posIn]
    | succ i =>
      have hi : i < xs.length := by simpa using h
      have hmem : xs[i] ∈ xs := List.getElem_mem hi
      have hne : x ≠ xs[i] := fun hcontra => hx (hcontra ▸ hmem)
      simpa [posIn, hne] using ih hxs hi

/-! ### Basic facts about `elemSet` and `aggPairs` -/

theorem elemSet_nodup (edges : List Edge) : (elemSet edges).Nodup :=
  (List.perm_insertionSort _ _).nodup_iff.2 (List.nodup_dedup _)

theorem elemSet_sorted_le (edges : List Edge) :
    (elemSet edges).Sorted (· ≤ ·) :=
  List.sorted_insertionSort _ _

theorem elemSet_sorted_lt (edges : List Edge) :
    (elemSet edges).Sorted (· < ·) :=
  (elemSet_sorted_le edges).lt_of_le (elemSet_nodup edges)

theorem mem_elemSet {edges : List Edge} {z : ℕ} :
    z ∈ elemSet edges ↔ z ∈ edges.map Edge.src ++ edges.map Edge.tgt :=
  (List.mem_insertionSort _).trans List.mem_dedup

theorem aggPairs_nodup (edges : List Edge) : (aggPairs edges).Nodup :=
  (List.perm_insertionSort _ _).nodup_iff.2 (List.nodup_dedup _)

theorem aggPairs_sorted (edges : List Edge) :
    (aggPairs edges).Sorted pairLE :=
  List.sorted_insertionSort _ _

theorem mem_aggPairs {edges : List Edge} {p : ℕ × ℕ} :
    p ∈ aggPairs edges ↔ p ∈ edgePairs edges :=
  (List.mem_insertionSort _).trans List.mem_dedup

theorem aggPairs_subset_product {edges : List Edge} {p : ℕ × ℕ}
    (h : p ∈ aggPairs edges) : p ∈ elemSet edges ×ˢ elemSet edges := by
  rcases p with ⟨a, b⟩
  rcases List.mem_map.1 (mem_aggPairs.1 h) with ⟨e, he, hpe⟩
  rcases Prod.mk.injEq .. ▸ hpe with ⟨ha, hb⟩
  refine List.mem_product.2 ⟨?_, ?_⟩
  · exact mem_elemSet.2 (List.mem_append.2 (Or.inl (ha ▸ List.mem_map_of_mem Edge.src he)))
  · exact mem_elemSet.2 (List.mem_append.2 (Or.inr (hb ▸ List.mem_map_of_mem Edge.tgt he)))

/-! ### The lexicographically sorted full product -/

theorem sorted_product {S T : List ℕ} (hS : S.Sorted (· < ·))
    (hT : T.Sorted (· ≤ ·)) : (S ×ˢ T).Sorted pairLE := by
  induction S with
  | nil => simp [List.Sorted]
  | cons a S ih =>
    have haS : ∀ c ∈ S, a < c := fun c hc => (List.sorted_cons.1 hS).1 c hc
    have hS' : S.Sorted (· < ·) := (List.sorted_cons.1 hS).2
    rw [List.product_cons]
    refine List.pairwise_append.2 ⟨?_, ih hS', ?_⟩
    · rw [List.pairwise_map]
      exact hT.imp fun {b c} hbc => Or.inr ⟨rfl, hbc⟩
    · rintro ⟨x, y⟩ hx ⟨u, v⟩ hu
      rcases List.mem_map.1 hx with ⟨b, _, hb⟩
      rcases Prod.mk.injEq .. ▸ hb with ⟨hxa, _⟩
      have humem : u ∈ S := (List.mem_product.1 hu).1
      exact Or.inl (hxa ▸ haS u humem)

theorem getElem?_product {S T : List ℕ} {i j : ℕ} (hi : i < S.length)
    (hj : j < T.length) :
    (S ×ˢ T)[i * T.length + j]? = some (S[i], T[j]) := by
  induction S generalizing i with
  | nil => simp at hi
  | cons a S ih =>
    rw [List.product_cons]
    cases i with
    | zero =>
      have hj' : 0 * T.length + j < (T.map fun b => (a, b)).length := by
        simpa using hj
      rw [List.getElem?_append_left hj']
      simp [hj]
    | succ i =>
      have hi' : i < S.length := by simpa [Nat.succ_lt_succ_iff] using hi
      have hidx : (i + 1) * T.length + j =
          (T.map fun b => (a, b)).length + (i * T.length + j) := by
        simp [Nat.succ_mul]; ring
      rw [hidx, List.getElem?_append_right (by omega)]
      simpa using ih hi'

theorem getElem_product {S T : List ℕ} {i j : ℕ} (hi : i < S.length)
    (hj : j < T.length) (hij : i * T.length + j < (S ×ˢ T).length) :
    (S ×ˢ T)[i * T.length + j] = (S[i], T[j]) := by
  have h := getElem?_product hi hj (T := T)
  rw [List.getElem?_eq_getElem hij] at h
  exact Option.some.inj h

/-- If the number of distinct ordered pairs fills the `n × n` square (the
condition under which the `reshape` of line 127 succeeds), then the
lexicographically sorted distinct pairs are exactly the row-major product
of the sorted element set with itself. -/
theorem aggPairs_eq_product {edges : List Edge}
    (h : (aggPairs edges).length = nElems edges * nElems edges) :
    aggPairs edges = elemSet edges ×ˢ elemSet edges := by
  have hsub : aggPairs edges ⊆ elemSet edges ×ˢ elemSet edges :=
    fun p hp => aggPairs_subset_product hp
  have hnodupP : (elemSet edges ×ˢ elemSet edges).Nodup :=
    (elemSet_nodup edges).product (elemSet_nodup edges)
  have hlen : (elemSet edges ×ˢ elemSet edges).length ≤ (aggPairs edges).length := by
    rw [List.length_product, h]; exact Nat.le_refl _
  have hperm : (aggPairs edges).Perm (elemSet edges ×ˢ elemSet edges) :=
    ((aggPairs_nodup edges).subperm hsub).perm_of_length_le hlen
  exact List.eq_of_perm_of_sorted hperm (aggPairs_sorted edges)
    (sorted_product (elemSet_sorted_lt edges)
      ((elemSet_sorted_lt edges).imp fun {a b} hab => Nat.le_of_lt hab))

/-- When the reshape succeeds, the pickled `zs` (= `zs.reshape(2,n,n)[1,0]`)
is exactly the sorted distinct element set of the attention edges. -/
theorem savedZs_eq_elemSet {edges : List Edge}
    (h : (aggPairs edges).length = nElems edges * nElems edges) :
    savedZs edges = elemSet edges := by
  rw [savedZs, aggPairs_eq_product h]
  cases hE : elemSet edges with
  | nil => simp
  | cons a E =>
    rw [List.product_cons]
    have hlen : (List.map (fun b => (a, b)) (a :: E)).length = nElems edges := by
      simp [nElems, hE]
    rw [← hlen, List.take_left]
    simp

theorem cell_index_lt {n i j : ℕ} (hi : i < n) (hj : j < n) :
    i * n + j < n * n := by
  calc i * n + j < i * n + n := by omega
    _ = (i + 1) * n := by ring
    _ ≤ n * n := Nat.mul_le_mul_right n hi

/-- Under a successful reshape, the pair stored at flat position
`i * n + j` is `(ElementSet[i], ElementSet[j])`. -/
theorem aggPairs_getD {edges : List Edge}
    (h : (aggPairs edges).length = nElems edges * nElems edges)
    {i j : ℕ} (hi : i < nElems edges) (hj : j < nElems edges) :
    (aggPairs edges).getD (i * nElems edges + j) (0, 0) =
      ((elemSet edges).getD i 0, (elemSet edges).getD j 0) := by
  have h2 : (aggPairs edges)[i * nElems edges + j]? =
      some ((elemSet edges)[i], (elemSet edges)[j]) := by
    rw [aggPairs_eq_product h]
    exact getElem?_product hi hj
  rw [List.getD_eq_getElem?_getD, h2, List.getD_eq_getElem _ _ hi,
    List.getD_eq_getElem _ _ hj]
  rfl

/-- Under a successful reshape, an edge's inverse index is the flat position
`i * n + j` exactly when its ordered pair is `(ElementSet[i], ElementSet[j])`. -/
theorem edgeIndex_eq_iff {edges : List Edge}
    (h : (aggPairs edges).length = nElems edges * nElems edges)
    {e : Edge} (he : e ∈ edges) {i j : ℕ}
    (hi : i < nElems edges) (hj : j < nElems edges) :
    edgeIndex edges e = i * nElems edges + j ↔
      e.src = (elemSet edges).getD i 0 ∧ e.tgt = (elemSet edges).getD j 0 := by
  have hmem : (e.src, e.tgt) ∈ aggPairs edges :=
    mem_aggPairs.2 (List.mem_map_of_mem _ he)
  have hlt : i * nElems edges + j < (aggPairs edges).length := by
    rw [h]; exact cell_index_lt hi hj
  constructor
  · intro hidx
    have hlt0 : posIn (aggPairs edges) (e.src, e.tgt) < (aggPairs edges).length :=
      posIn_lt_length hmem
    have hgot : (aggPairs edges)[posIn (aggPairs edges) (e.src, e.tgt)]? =
        some (e.src, e.tgt) := by
      rw [List.getElem?_eq_getElem hlt0]
      exact congrArg some (getElem_posIn hmem hlt0)
    rw [edgeIndex] at hidx
    rw [hidx] at hgot
    have : (aggPairs edges).getD (i * nElems edges + j) (0, 0) = (e.src, e.tgt) := by
      rw [List.getD_eq_getElem?_getD, hgot]; rfl
    rw [aggPairs_getD h hi hj] at this
    exact ⟨(Prod.mk.injEq .. ▸ this.symm).1, (Prod.mk.injEq .. ▸ this.symm).2⟩
  · intro ⟨hsrc, htgt⟩
    have hpair : (e.src, e.tgt) = (aggPairs edges)[i * nElems edges + j] := by
      rw [← List.getD_eq_getElem _ (0, 0) hlt, aggPairs_getD h hi hj, hsrc, htgt]
    rw [edgeIndex, hpair]
    exact posIn_getElem (aggPairs_nodup edges) hlt

/-- Inversion of a successful aggregation run: the shape check and the key
check both passed, and the result is built from the component functions. -/
theorem aggregate_ok_inv {edges : List Edge} {refs : List (ℕ × ℕ)}
    {batchAtoms : List (List ℕ)} {r : AggResult}
    (h : aggregate edges refs batchAtoms = .ok r) :
    (aggPairs edges).length = nElems edges * nElems edges ∧
      keyCheck edges refs = true ∧
      r = ⟨savedZs edges, attnMatrix edges, refSrcElems refs,
        bondCell edges refs, atomsPerElem batchAtoms⟩ := by
  unfold aggregate at h
  split_ifs at h with h1 h2
  · exact ⟨h1, h2, (Except.ok.injEq .. ▸ h).symm⟩

/-- Under a successful reshape, matrix cell `(i, j)` holds the arithmetic
mean of the attention weights of the edges whose ordered pair is
`(ElementSet[i], ElementSet[j])` (duplicates counted individually). -/
theorem attnMatrix_eq_groupMean {edges : List Edge}
    (h : (aggPairs edges).length = nElems edges * nElems edges)
    {i j : ℕ} (hi : i < nElems edges) (hj : j < nElems edges) :
    attnMatrix edges i j =
      ((edges.filter fun e => decide (e.src = (elemSet edges).getD i 0 ∧
          e.tgt = (elemSet edges).getD j 0)).map Edge.attn).sum /
      (((edges.filter fun e => decide (e.src = (elemSet edges).getD i 0 ∧
          e.tgt = (elemSet edges).getD j 0)).length : ℚ)) := by
  have hfilter :
      (edges.filter fun e => decide (edgeIndex edges e = i * nElems edges + j)) =
        edges.filter fun e => decide (e.src = (elemSet edges).getD i 0 ∧
          e.tgt = (elemSet edges).getD j 0) := by
    refine List.filter_congr fun e he => ?_
    exact decide_eq_decide.2 (edgeIndex_eq_iff h he hi hj)
  rw [attnMatrix, scatterMean]
  simp only [hfilter]

/-! ### The bond-probability matrix -/

theorem mem_refPairsList {refs : List (ℕ × ℕ)} {p : ℕ × ℕ} :
    p ∈ refPairsList refs ↔ p ∈ refs :=
  (List.mem_insertionSort _).trans List.mem_dedup

theorem refPairsList_nodup (refs : List (ℕ × ℕ)) : (refPairsList refs).Nodup :=
  (List.perm_insertionSort _ _).nodup_iff.2 (List.nodup_dedup _)

theorem keyCheck_mem {edges : List Edge} {refs : List (ℕ × ℕ)}
    (h : keyCheck edges refs = true) {p : ℕ × ℕ} (hp : p ∈ refs) :
    p.1 ∈ elemSet edges ∧ p.2 ∈ elemSet edges := by
  have := List.all_eq_true.1 h p hp
  simpa using this

theorem z2idx_eq_iff {edges : List Edge} {z : ℕ} (hz : z ∈ elemSet edges)
    {i : ℕ} (hi : i < nElems edges) :
    z2idx edges z = i ↔ z = (elemSet edges).getD i 0 := by
  constructor
  · intro hidx
    have hlt0 : posIn (elemSet edges) z < (elemSet edges).length := posIn_lt_length hz
    have hgot : (elemSet edges)[posIn (elemSet edges) z]? = some z := by
      rw [List.getElem?_eq_getElem hlt0]
      exact congrArg some (getElem_posIn hz hlt0)
    rw [z2idx] at hidx
    rw [hidx] at hgot
    rw [List.getD_eq_getElem?_getD, hgot]
    rfl
  · intro hzi
    rw [z2idx, hzi, List.getD_eq_getElem _ _ hi]
    exact posIn_getElem (elemSet_nodup edges) hi

theorem find?_unique {α : Type} (l : List α) (pred : α → Bool) (a : α)
    (ha : a ∈ l) (hpred : ∀ x ∈ l, pred x = true ↔ x = a) :
    l.find? pred = some a := by
  induction l with
  | nil => cases ha
  | cons x xs ih =>
    by_cases hx : pred x = true
    · rw [List.find?_cons_of_pos _ hx]
      exact congrArg some ((hpred x (List.mem_cons_self x xs)).1 hx)
    · rw [List.find?_cons_of_neg _ hx]
      have hxa : x ≠ a := fun hcontra =>
        hx ((hpred x (List.mem_cons_self x xs)).2 hcontra)
      have ha' : a ∈ xs := by
        rcases List.mem_cons.1 ha with h | h
        · exact absurd h.symm hxa
        · exact h
      exact ih ha' fun y hy => hpred y (List.mem_cons_of_mem x hy)

theorem countPair_nil (p : ℕ × ℕ) : countPair [] p = 0 := rfl

theorem countPair_cons (r : ℕ × ℕ) (refs : List (ℕ × ℕ)) (p : ℕ × ℕ) :
    countPair (r :: refs) p = countPair refs p + if r = p then 1 else 0 := by
  rw [countPair, countPair, List.filter_cons]
  by_cases h : r = p <;> simp [h]

theorem countPair_eq_zero {refs : List (ℕ × ℕ)} {p : ℕ × ℕ} (h : p ∉ refs) :
    countPair refs p = 0 := by
  rw [countPair, List.length_eq_zero]
  rw [List.filter_eq_nil_iff]
  intro q hq
  simp only [decide_eq_true_eq]
  exact fun hqp => h (hqp ▸ hq)

/-- Counting occurrences inside a filtered list agrees with counting in the
whole list when the counted value satisfies the filter. -/
theorem countPair_filter {refs : List (ℕ × ℕ)} {pred : ℕ × ℕ → Bool}
    {p : ℕ × ℕ} (hp : pred p = true) :
    countPair (refs.filter pred) p = countPair refs p := by
  rw [countPair, countPair, List.filter_filter]
  congr 1
  refine List.filter_congr fun q _ => ?_
  by_cases hq : q = p
  · simp [hq, hp]
  · simp [hq]

/-- A list's length is the sum, over any deduplicated cover of its members,
of the occurrence counts. -/
theorem sum_countPair (F : List (ℕ × ℕ)) (s : Finset (ℕ × ℕ))
    (hcover : ∀ a ∈ F, a ∈ s) : (s.sum fun a => countPair F a) = F.length := by
  induction F with
  | nil => simp [countPair_nil]
  | cons x F ih =>
    have hx : x ∈ s := hcover x (List.mem_cons_self x F)
    have hsplit : (s.sum fun a => countPair (x :: F) a) =
        (s.sum fun a => countPair F a) + s.sum fun a => if x = a then 1 else 0 := by
      rw [← Finset.sum_add_distrib]
      exact Finset.sum_congr rfl fun a _ => countPair_cons x F a
    have hind : (s.sum fun a => if x = a then 1 else 0) = 1 := by
      rw [Finset.sum_ite_eq s x fun _ => 1, if_pos hx]
    rw [hsplit, hind, ih fun a ha => hcover a (List.mem_cons_of_mem x ha)]
    simp [Nat.add_comm]

/-- The in-place normalization divisor of line 140 equals the number of
reference edges sharing the source element. -/
theorem srcTotal_eq_length (refs : List (ℕ × ℕ)) (s : ℕ) :
    srcTotal refs s = ((refs.filter fun q => decide (q.1 = s)).length : ℚ) := by
  set F := refs.filter fun q => decide (q.1 = s) with hF
  set L := (refPairsList refs).filter fun q => decide (q.1 = s) with hL
  have hLnodup : L.Nodup := (refPairsList_nodup refs).filter _
  have hmap : (L.map fun q => (countPair refs q : ℚ)) =
      L.map fun q => (countPair F q : ℚ) := by
    refine List.map_congr_left fun q hq => ?_
    have hpred : (decide (q.1 = s)) = true := (List.mem_filter.1 hq).2
    rw [hF, countPair_filter hpred]
  have hsum : srcTotal refs s = L.toFinset.sum fun q => (countPair F q : ℚ) := by
    rw [srcTotal, ← hL, hmap]
    exact (List.sum_toFinset _ hLnodup).symm
  rw [hsum, ← Nat.cast_sum]
  congr 1
  refine sum_countPair F L.toFinset fun a ha => ?_
  have haF := List.mem_filter.1 ha
  exact List.mem_toFinset.2 (List.mem_filter.2 ⟨mem_refPairsList.2 haF.1, haF.2⟩)

/-- Under the key check, cell `(i, j)` of `counts_ref_square` equals the
number of reference edges with pair `(ElementSet[i], ElementSet[j])` divided
by the number of reference edges with source `ElementSet[i]`. -/
theorem bondCell_eq {edges : List Edge} {refs : List (ℕ × ℕ)}
    (hkey : keyCheck edges refs = true) {i j : ℕ}
    (hi : i < nElems edges) (hj : j < nElems edges) :
    bondCell edges refs i j =
      (countPair refs ((elemSet edges).getD i 0, (elemSet edges).getD j 0) : ℚ) /
      ((refs.filter fun q => decide (q.1 = (elemSet edges).getD i 0)).length : ℚ) := by
  set s := (elemSet edges).getD i 0 with hs
  set t := (elemSet edges).getD j 0 with ht
  have hiff : ∀ p ∈ refPairsList refs,
      ((decide (z2idx edges p.1 = i) && decide (z2idx edges p.2 = j)) = true ↔
        p = (s, t)) := by
    intro p hp
    have hpref : p ∈ refs := mem_refPairsList.1 hp
    rcases keyCheck_mem hkey hpref with ⟨h1, h2⟩
    rw [Bool.and_eq_true, decide_eq_true_eq, decide_eq_true_eq,
      z2idx_eq_iff h1 hi, z2idx_eq_iff h2 hj]
    rw [Prod.ext_iff]
  by_cases hmem : (s, t) ∈ refs
  · have hfind : (refPairsList refs).find? (fun p =>
        decide (z2idx edges p.1 = i) && decide (z2idx edges p.2 = j)) = some (s, t) :=
      find?_unique _ _ _ (mem_refPairsList.2 hmem) hiff
    rw [bondCell, hfind]
    simp only [normCount, srcTotal_eq_length]
  · have hfind : (refPairsList refs).find? (fun p =>
        decide (z2idx edges p.1 = i) && decide (z2idx edges p.2 = j)) = none := by
      rw [List.find?_eq_none]
      intro p hp hpred
      exact hmem ((hiff p hp).1 hpred ▸ mem_refPairsList.1 hp)
    rw [bondCell, hfind]
    rw [countPair_eq_zero hmem]
    simp

/-- Partitioning the reference edges with source `s` by their target (drawn
from a duplicate-free element list containing all targets): the per-target
occurrence counts sum to the number of edges with that source. -/
theorem sum_countPair_row {refs : List (ℕ × ℕ)} {E : List ℕ} (hnd : E.Nodup)
    (htgt : ∀ p ∈ refs, p.2 ∈ E) (s : ℕ) :
    (∑ j ∈ Finset.range E.length, countPair refs (s, E.getD j 0)) =
      (refs.filter fun q => decide (q.1 = s)).length := by
  induction refs with
  | nil => simp [countPair_nil]
  | cons r rs ih =>
    have htgt' : ∀ p ∈ rs, p.2 ∈ E := fun p hp => htgt p (List.mem_cons_of_mem r hp)
    have hsplit : (∑ j ∈ Finset.range E.length, countPair (r :: rs) (s, E.getD j 0)) =
        (∑ j ∈ Finset.range E.length, countPair rs (s, E.getD j 0)) +
          ∑ j ∈ Finset.range E.length, if r = (s, E.getD j 0) then 1 else 0 := by
      rw [← Finset.sum_add_distrib]
      exact Finset.sum_congr rfl fun j _ => countPair_cons ..
    rw [hsplit, ih htgt', List.filter_cons]
    by_cases hr : r.1 = s
    · have hr2 : r.2 ∈ E := htgt r (List.mem_cons_self r rs)
      have hk : posIn E r.2 < E.length := posIn_lt_length hr2
      have hcond : ∀ j ∈ Finset.range E.length,
          (if r = (s, E.getD j 0) then 1 else 0) =
            if j = posIn E r.2 then 1 else 0 := by
        intro j hj
        have hjlt : j < E.length := Finset.mem_range.1 hj
        refine if_congr ?_ rfl rfl
        rw [Prod.ext_iff]
        constructor
        · intro ⟨_, h2⟩
          rw [List.getD_eq_getElem _ _ hjlt] at h2
          have h2' : r.2 = E[j] := h2
          rw [h2']
          exact (posIn_getElem hnd hjlt).symm
        · intro hj'
          refine ⟨hr, ?_⟩
          rw [List.getD_eq_getElem _ _ hjlt]
          subst hj'
          exact (getElem_posIn hr2 hk).symm
      have hone : (∑ j ∈ Finset.range E.length, if r = (s, E.getD j 0) then 1 else 0) = 1 := by
        rw [Finset.sum_congr rfl hcond,
          Finset.sum_ite_eq' (Finset.range E.length) (posIn E r.2) fun _ => 1,
          if_pos (Finset.mem_range.2 hk)]
      rw [hone, if_pos (by simpa using hr)]
      simp [Nat.add_comm]
    · have hzero : (∑ j ∈ Finset.range E.length, if r = (s, E.getD j 0) then 1 else 0) = 0 := by
        refine Finset.sum_eq_zero fun j _ => ?_
        rw [if_neg]
        intro hcontra
        exact hr (congrArg Prod.fst hcontra)
      rw [hzero, if_neg (by simpa using hr)]
      simp

/-! ### Atom counting -/

/-- The accumulated dictionary value of an element is the sum over batches
of the element's per-batch occurrence count (never an overwrite). -/
theorem atomsPerElem_eq (batchAtoms : List (List ℕ)) (e : ℕ) :
    atomsPerElem batchAtoms e = (batchAtoms.map fun b => b.count e).sum := by
  suffices h : ∀ (f : ℕ → ℕ),
      batchAtoms.foldl addBatchCounts f e = f e + (batchAtoms.map fun b => b.count e).sum by
    simpa using h fun _ => 0
  induction batchAtoms with
  | nil => intro f; simp
  | cons b bs ih =>
    intro f
    rw [List.foldl_cons, ih (addBatchCounts f b)]
    simp [addBatchCounts, Nat.add_assoc]

/-! ### Smoother basics -/

theorem smoothShift_getD {xs : List ℚ} {w i : ℕ} (hi : i < xs.length) :
    (smoothShift xs w).getD i none =
      if i + w < xs.length then rollingMeanRA xs w (i + w) else none := by
  rw [smoothShift, List.getD_eq_getElem?_getD, List.getElem?_map,
    List.getElem?_range hi]
  rfl

theorem smoothShift_length (xs : List ℚ) (w : ℕ) :
    (smoothShift xs w).length = xs.length := by
  simp [smoothShift]

theorem smoothShift_getD_of_lt {xs : List ℚ} {w i : ℕ} (hiw : i + w < xs.length) :
    (smoothShift xs w).getD i none = some (windowSum xs (i + 1) w / (w : ℚ)) := by
  have hi : i < xs.length := by omega
  rw [smoothShift_getD hi, if_pos hiw, rollingMeanRA, if_pos (by omega)]
  have harg : i + w + 1 - w = i + 1 := by omega
  rw [harg]

theorem smoothShift_none_iff {xs : List ℚ} {w i : ℕ} (hi : i < xs.length) :
    (smoothShift xs w).getD i none = none ↔ xs.length ≤ i + w := by
  constructor
  · intro h
    by_contra hlt
    rw [smoothShift_getD_of_lt (by omega)] at h
    cases h
  · intro h
    rw [smoothShift_getD hi, if_neg (by omega)]

/-! ### The pair filter and the argsort contract -/

theorem multiset_pair_eq (a b c d : ℕ) :
    ({a, b} : Multiset ℕ) = {c, d} ↔ (a = c ∧ b = d) ∨ (a = d ∧ b = c) := by
  constructor
  · intro h
    have hmem : a ∈ ({c, d} : Multiset ℕ) := by
      rw [← h]; simp
    rcases by simpa using hmem with ha | ha
    · subst ha
      left
      refine ⟨rfl, ?_⟩
      have hb := (Multiset.cons_inj_right a).1 h
      simpa using hb
    · subst ha
      right
      refine ⟨rfl, ?_⟩
      have hcomm : ({c, a} : Multiset ℕ) = {a, c} := Multiset.pair_comm c a
      rw [hcomm] at h
      have hb := (Multiset.cons_inj_right a).1 h
      simpa using hb
  · rintro (⟨rfl, rfl⟩ | ⟨rfl, rfl⟩)
    · rfl
    · exact Multiset.pair_comm a b

theorem pairMask_iff (z1 z2 : ℕ) (e : Edge) :
    pairMask z1 z2 e = true ↔ ({e.src, e.tgt} : Multiset ℕ) = {z1, z2} := by
  rw [pairMask, multiset_pair_eq]
  simp [Bool.or_eq_true, Bool.and_eq_true, beq_iff_eq]

/-- The key order used to realise one admissible argsort permutation. -/
def keyedLE (ds : List ℚ) (a b : ℕ) : Prop := ds.getD a 0 ≤ ds.getD b 0

instance (ds : List ℚ) : DecidableRel (keyedLE ds) := fun a b =>
  inferInstanceAs (Decidable (ds.getD a 0 ≤ ds.getD b 0))

instance (ds : List ℚ) : IsTotal ℕ (keyedLE ds) :=
  ⟨fun a b => le_total (ds.getD a 0) (ds.getD b 0)⟩

instance (ds : List ℚ) : IsTrans ℕ (keyedLE ds) :=
  ⟨fun _ _ _ hab hbc => le_trans hab hbc⟩

/-- Some admissible argsort permutation always exists. -/
theorem exists_argsort (ds : List ℚ) : ∃ p, IsArgsort ds p := by
  refine ⟨List.insertionSort (keyedLE ds) (List.range ds.length), ?_, ?_⟩
  · exact List.perm_insertionSort _ _
  · rw [List.Sorted, List.pairwise_map]
    exact List.sorted_insertionSort (keyedLE ds) (List.range ds.length)

/-! ### Permutation invariance of every aggregate -/

theorem insertionSortDedup_perm_eq {α : Type} (r : α → α → Prop) [DecidableEq α]
    [DecidableRel r] [IsTotal α r] [IsTrans α r] [IsAntisymm α r]
    {l1 l2 : List α} (h : l1.Perm l2) :
    (l1.dedup).insertionSort r = (l2.dedup).insertionSort r := by
  refine List.eq_of_perm_of_sorted ?_ (List.sorted_insertionSort r _)
    (List.sorted_insertionSort r _)
  exact (List.perm_insertionSort r _).trans (h.dedup.trans (List.perm_insertionSort r _).symm)

theorem elemSet_perm {e1 e2 : List Edge} (h : e1.Perm e2) :
    elemSet e1 = elemSet e2 :=
  insertionSortDedup_perm_eq _ ((h.map Edge.src).append (h.map Edge.tgt))

theorem aggPairs_perm {e1 e2 : List Edge} (h : e1.Perm e2) :
    aggPairs e1 = aggPairs e2 :=
  insertionSortDedup_perm_eq _ (h.map _)

theorem scatterMean_perm {e1 e2 : List Edge} (h : e1.Perm e2) :
    scatterMean e1 = scatterMean e2 := by
  funext g
  have hidx : edgeIndex e1 = edgeIndex e2 := by
    funext e
    unfold edgeIndex
    rw [aggPairs_perm h]
  have hperm : (e1.filter fun e => decide (edgeIndex e2 e = g)).Perm
      (e2.filter fun e => decide (edgeIndex e2 e = g)) := h.filter _
  unfold scatterMean
  simp only [hidx]
  rw [(hperm.map Edge.attn).sum_eq, hperm.length_eq]

theorem countPair_perm {r1 r2 : List (ℕ × ℕ)} (h : r1.Perm r2) :
    countPair r1 = countPair r2 := by
  funext p
  exact (h.filter _).length_eq

theorem refPairsList_perm {r1 r2 : List (ℕ × ℕ)} (h : r1.Perm r2) :
    refPairsList r1 = refPairsList r2 :=
  insertionSortDedup_perm_eq _ h

theorem bondCell_perm {e1 e2 : List Edge} {r1 r2 : List (ℕ × ℕ)}
    (he : e1.Perm e2) (hr : r1.Perm r2) :
    bondCell e1 r1 = bondCell e2 r2 := by
  have hnorm : normCount r1 = normCount r2 := by
    funext p
    unfold normCount srcTotal
    rw [countPair_perm hr, refPairsList_perm hr]
  funext i j
  unfold bondCell z2idx
  rw [refPairsList_perm hr, elemSet_perm he, hnorm]

theorem keyCheck_perm {e1 e2 : List Edge} {r1 r2 : List (ℕ × ℕ)}
    (he : e1.Perm e2) (hr : r1.Perm r2) :
    keyCheck e1 r1 = keyCheck e2 r2 := by
  rw [Bool.eq_iff_iff]
  unfold keyCheck
  rw [List.all_eq_true, List.all_eq_true]
  constructor
  · intro h p hp
    rw [← elemSet_perm he]
    exact h p (hr.mem_iff.2 hp)
  · intro h p hp
    rw [elemSet_perm he]
    exact h p (hr.mem_iff.1 hp)

theorem atomsPerElem_perm {b1 b2 : List (List ℕ)} (h : b1.Perm b2) :
    atomsPerElem b1 = atomsPerElem b2 := by
  funext e
  rw [atomsPerElem_eq, atomsPerElem_eq, ((h.map fun b => b.count e)).sum_eq]

theorem refSrcElems_perm {r1 r2 : List (ℕ × ℕ)} (h : r1.Perm r2) :
    refSrcElems r1 = refSrcElems r2 :=
  insertionSortDedup_perm_eq _ (h.map _)

instance (ds : List ℚ) (p : List ℕ) : Decidable (IsArgsort ds p) :=
  inferInstanceAs (Decidable (_ ∧ _))

/-! ### Concrete inputs used by witnesses and counterexamples -/

/-- A successful run: elements `{1, 6}`, all four ordered pairs present. -/
def exEdges : List Edge :=
  [⟨1, 1, 1/2, 1⟩, ⟨1, 6, 1/5, 1⟩, ⟨1, 6, 2/5, 6/5⟩, ⟨6, 1, 3/5, 6/5⟩,
    ⟨6, 6, 1/10, 2⟩]

/-- Reference bonds for the successful run: source `1` only. -/
def exRefs : List (ℕ × ℕ) := [(1, 6), (1, 6), (1, 1)]

/-- Per-batch atom lists for the successful run. -/
def exBatches : List (List ℕ) := [[1, 1, 6], [1, 6]]

/-- The aggregate record produced by the successful run. -/
def exResult : AggResult :=
  ⟨savedZs exEdges, attnMatrix exEdges, refSrcElems exRefs,
    bondCell exEdges exRefs, atomsPerElem exBatches⟩

theorem exAggregate_ok : aggregate exEdges exRefs exBatches = .ok exResult := by
  unfold aggregate
  rw [if_pos (by decide), if_pos (by decide)]
  rfl

/-- The spec's own concrete scenario:
`edges = [(H,C,0.2,1.0),(H,C,0.4,1.2),(C,H,0.6,1.2)]`. -/
def c2Edges : List Edge := [⟨1, 6, 1/5, 1⟩, ⟨1, 6, 2/5, 6/5⟩, ⟨6, 1, 3/5, 6/5⟩]

/-- The spec's own concrete scenario:
`reference_edges = [(H,C),(H,C),(H,O)]`. -/
def c2Refs : List (ℕ × ℕ) := [(1, 6), (1, 6), (1, 8)]

/-- Samples for the smoother scenarios (the `(H,C)` attention weights of the
spec's scenario, distance-sorted). -/
def exSamples : List ℚ := [1/5, 2/5, 3/5]

/-- A longer sample sequence with a single nonzero entry, exposing the
window placement of the smoother. -/
def exSpike : List ℚ := [0, 0, 0, 0, 1, 0, 0, 0, 0]

/-! ### Claim theorems -/

/-- C1: whenever the aggregation pass succeeds, InteractionMatrix cell
`(i, j)` equals the arithmetic mean of exactly the attention weights of the
edges whose ordered element pair is `(ElementSet[i], ElementSet[j])`;
duplicate identical edges each appear in the filtered group and therefore
each count separately in the divisor, and grouping equality is integer
equality of the two element ids. -/
theorem C1_attn_mean {edges : List Edge} {refs : List (ℕ × ℕ)}
    {batchAtoms : List (List ℕ)} {r : AggResult}
    (hok : aggregate edges refs batchAtoms = .ok r)
    {i j : ℕ} (hi : i < nElems edges) (hj : j < nElems edges) :
    r.attn i j =
      ((edges.filter fun e => decide (e.src = (elemSet edges).getD i 0 ∧
          e.tgt = (elemSet edges).getD j 0)).map Edge.attn).sum /
      ((edges.filter fun e => decide (e.src = (elemSet edges).getD i 0 ∧
          e.tgt = (elemSet edges).getD j 0)).length : ℚ) := by
  rcases aggregate_ok_inv hok with ⟨hsq, _, hres⟩
  rw [hres]
  exact attnMatrix_eq_groupMean hsq hi hj

theorem C1_attn_mean_witness :
    aggregate exEdges exRefs exBatches = .ok exResult ∧
      0 < nElems exEdges ∧ 1 < nElems exEdges ∧
      exResult.attn 0 1 =
        ((exEdges.filter fun e => decide (e.src = (elemSet exEdges).getD 0 0 ∧
            e.tgt = (elemSet exEdges).getD 1 0)).map Edge.attn).sum /
        ((exEdges.filter fun e => decide (e.src = (elemSet exEdges).getD 0 0 ∧
            e.tgt = (elemSet exEdges).getD 1 0)).length : ℚ) :=
  ⟨exAggregate_ok, by decide, by decide,
    C1_attn_mean exAggregate_ok (by decide) (by decide)⟩

/-- C2 counterexample: on the spec's own scenario the full pass does not
produce an ElementSet at all — the reshape fails (only two of the four
ordered pairs over `{H, C}` occur), so no ElementSet equal to `{H, C, O}`
results; moreover the element `O` (= 8), which occurs only in a reference
edge, is not in the attention vocabulary. -/
theorem C2_counterexample :
    aggregate c2Edges c2Refs [] = .error .shapeError ∧
      (8 : ℕ) ∉ elemSet c2Edges := by
  constructor
  · unfold aggregate
    rw [if_neg (by decide)]
  · decide

/-- C2 amended: after a **successful** pass, the pickled ElementSet is the
ascending duplicate-free list of element ids observed across the attention
edges; every attention-edge endpoint appears in it, and every
reference-edge endpoint appears in it as well — not because reference ids
are collected, but because the pass fails (`KeyError`) whenever a
reference id is missing from the attention edges.  On the spec's concrete
scenario the pass instead fails with a shape error (see the
counterexample), so no ElementSet `{H, C, O}` is ever produced. -/
theorem C2_elemSet_amended {edges : List Edge} {refs : List (ℕ × ℕ)}
    {batchAtoms : List (List ℕ)} {r : AggResult}
    (hok : aggregate edges refs batchAtoms = .ok r) :
    r.elems = elemSet edges ∧
      (elemSet edges).Sorted (· < ·) ∧
      (∀ e ∈ edges, e.src ∈ r.elems ∧ e.tgt ∈ r.elems) ∧
      ∀ p ∈ refs, p.1 ∈ r.elems ∧ p.2 ∈ r.elems := by
  rcases aggregate_ok_inv hok with ⟨hsq, hkey, hres⟩
  have helems : r.elems = elemSet edges := by
    rw [hres]
    exact savedZs_eq_elemSet hsq
  refine ⟨helems, elemSet_sorted_lt edges, ?_, ?_⟩
  · intro e he
    rw [helems]
    constructor
    · exact mem_elemSet.2 (List.mem_append.2 (Or.inl (List.mem_map_of_mem Edge.src he)))
    · exact mem_elemSet.2 (List.mem_append.2 (Or.inr (List.mem_map_of_mem Edge.tgt he)))
  · intro p hp
    rw [helems]
    exact keyCheck_mem hkey hp

theorem C2_elemSet_amended_witness :
    aggregate exEdges exRefs exBatches = .ok exResult ∧
      (exResult.elems = elemSet exEdges ∧
        (elemSet exEdges).Sorted (· < ·) ∧
        (∀ e ∈ exEdges, e.src ∈ exResult.elems ∧ e.tgt ∈ exResult.elems) ∧
        ∀ p ∈ exRefs, p.1 ∈ exResult.elems ∧ p.2 ∈ exResult.elems) :=
  ⟨exAggregate_ok, C2_elemSet_amended exAggregate_ok⟩

/-- C10: constructing the interaction matrix has the unstated precondition
that every ordered pair of observed elements occurs among the attention
edges: if some pair `(a, b)` of vocabulary elements never occurs, the
distinct-pair list cannot fill the `n × n` square and the pass fails with
the shape error of the `reshape` at line 127, instead of producing a
matrix with undefined cells. -/
theorem C10_shape_precondition {edges : List Edge} {refs : List (ℕ × ℕ)}
    {batchAtoms : List (List ℕ)} {a b : ℕ}
    (ha : a ∈ elemSet edges) (hb : b ∈ elemSet edges)
    (hmiss : (a, b) ∉ edgePairs edges) :
    aggregate edges refs batchAtoms = .error .shapeError := by
  unfold aggregate
  rw [if_neg]
  intro hlen
  have hmem : (a, b) ∈ aggPairs edges := by
    rw [aggPairs_eq_product hlen]
    exact List.mem_product.2 ⟨ha, hb⟩
  exact hmiss (mem_aggPairs.1 hmem)

/-- C3 counterexample: on a successful run whose source element `6`
(`ElementSet[1]`) has zero reference edges, the corresponding
BondProbabilityMatrix row is stored as the plain value `0` in every cell —
the result carries no undefined marker, contradicting "never stored as the
value zero". -/
theorem C3_counterexample :
    ((aggregate exEdges exRefs exBatches).toOption.map fun r =>
        (r.bond 1 0, r.bond 1 1)) = some (0, 0) ∧
      (exRefs.filter fun p => decide (p.1 = 6)).length = 0 ∧
      (elemSet exEdges).getD 1 0 = 6 := by
  refine ⟨?_, by decide, by decide⟩
  rw [exAggregate_ok]
  decide

/-- C3 amended: an InteractionMatrix with a missing contributing pair makes
the whole pass fail (no flagged cells exist); a BondProbabilityMatrix row
whose source element has zero reference edges is stored as the value zero
in every cell rather than being flagged; the row-normalization loop never
performs a division by zero — every divisor it actually uses (`srcTotal`
of a distinct reference pair's source) is nonzero — and never raises. -/
theorem C3_zero_rows_amended {edges : List Edge} {refs : List (ℕ × ℕ)}
    {batchAtoms : List (List ℕ)} {r : AggResult}
    (hok : aggregate edges refs batchAtoms = .ok r)
    {i : ℕ} (hi : i < nElems edges)
    (hrow : (refs.filter fun q => decide (q.1 = (elemSet edges).getD i 0)).length = 0) :
    (∀ j, j < nElems edges → r.bond i j = 0) ∧
      ∀ p ∈ refPairsList refs, srcTotal refs p.1 ≠ 0 := by
  rcases aggregate_ok_inv hok with ⟨hsq, hkey, hres⟩
  constructor
  · intro j hj
    rw [hres]
    show bondCell edges refs i j = 0
    rw [bondCell_eq hkey hi hj, hrow]
    simp
  · intro p hp
    rw [srcTotal_eq_length]
    have hpr : p ∈ refs := mem_refPairsList.1 hp
    have hpf : p ∈ refs.filter fun q => decide (q.1 = p.1) :=
      List.mem_filter.2 ⟨hpr, by simp⟩
    have hpos := List.length_pos_of_mem hpf
    exact Nat.cast_ne_zero.2 (by omega)

theorem C3_zero_rows_amended_witness :
    aggregate exEdges exRefs exBatches = .ok exResult ∧ 1 < nElems exEdges ∧
      (exRefs.filter fun q => decide (q.1 = (elemSet exEdges).getD 1 0)).length = 0 ∧
      ((∀ j, j < nElems exEdges → exResult.bond 1 j = 0) ∧
        ∀ p ∈ refPairsList exRefs, srcTotal exRefs p.1 ≠ 0) :=
  ⟨exAggregate_ok, by decide, by decide,
    C3_zero_rows_amended exAggregate_ok (by decide) (by decide)⟩

/-- C4: on a successful run, every BondProbabilityMatrix row whose source
element has at least one reference edge has cell `(i, j)` equal to the
number of reference edges with ordered pair `(ElementSet[i], ElementSet[j])`
divided by the number of reference edges with source `ElementSet[i]`, and
the row sums to exactly `1`. -/
theorem C4_bond_row {edges : List Edge} {refs : List (ℕ × ℕ)}
    {batchAtoms : List (List ℕ)} {r : AggResult}
    (hok : aggregate edges refs batchAtoms = .ok r)
    {i : ℕ} (hi : i < nElems edges)
    (hrow : (refs.filter fun q => decide (q.1 = (elemSet edges).getD i 0)).length ≠ 0) :
    (∀ j, j < nElems edges → r.bond i j =
        (countPair refs ((elemSet edges).getD i 0, (elemSet edges).getD j 0) : ℚ) /
        ((refs.filter fun q => decide (q.1 = (elemSet edges).getD i 0)).length : ℚ)) ∧
      (∑ j ∈ Finset.range (nElems edges), r.bond i j) = 1 := by
  rcases aggregate_ok_inv hok with ⟨hsq, hkey, hres⟩
  have hcell : ∀ j, j < nElems edges → r.bond i j =
      (countPair refs ((elemSet edges).getD i 0, (elemSet edges).getD j 0) : ℚ) /
      ((refs.filter fun q => decide (q.1 = (elemSet edges).getD i 0)).length : ℚ) := by
    intro j hj
    rw [hres]
    show bondCell edges refs i j = _
    exact bondCell_eq hkey hi hj
  refine ⟨hcell, ?_⟩
  rw [Finset.sum_congr rfl fun j hj => hcell j (Finset.mem_range.1 hj),
    ← Finset.sum_div]
  have htgt : ∀ p ∈ refs, p.2 ∈ elemSet edges := fun p hp => (keyCheck_mem hkey hp).2
  have hnum : (∑ j ∈ Finset.range (nElems edges),
      (countPair refs ((elemSet edges).getD i 0, (elemSet edges).getD j 0) : ℚ)) =
      ((refs.filter fun q => decide (q.1 = (elemSet edges).getD i 0)).length : ℚ) := by
    rw [← Nat.cast_sum]
    exact congrArg _ (sum_countPair_row (elemSet_nodup edges) htgt _)
  rw [hnum]
  exact div_self (Nat.cast_ne_zero.2 hrow)

theorem C4_bond_row_witness :
    aggregate exEdges exRefs exBatches = .ok exResult ∧ 0 < nElems exEdges ∧
      (exRefs.filter fun q => decide (q.1 = (elemSet exEdges).getD 0 0)).length ≠ 0 ∧
      ((∀ j, j < nElems exEdges → exResult.bond 0 j =
          (countPair exRefs ((elemSet exEdges).getD 0 0, (elemSet exEdges).getD j 0) : ℚ) /
          ((exRefs.filter fun q => decide (q.1 = (elemSet exEdges).getD 0 0)).length : ℚ)) ∧
        (∑ j ∈ Finset.range (nElems exEdges), exResult.bond 0 j) = 1) :=
  ⟨exAggregate_ok, by decide, by decide,
    C4_bond_row exAggregate_ok (by decide) (by decide)⟩

theorem C10_shape_precondition_witness :
    (1 : ℕ) ∈ elemSet c2Edges ∧ ((1, 1) : ℕ × ℕ) ∉ edgePairs c2Edges ∧
      aggregate c2Edges c2Refs [] = .error .shapeError :=
  ⟨by decide, by decide,
    C10_shape_precondition (show (1 : ℕ) ∈ elemSet c2Edges by decide)
      (show (1 : ℕ) ∈ elemSet c2Edges by decide)
      (show ((1, 1) : ℕ × ℕ) ∉ edgePairs c2Edges by decide)⟩

/-- C5 counterexample: with `window = 4` at position `3` of a spike
sequence, the value produced by the right-aligned rolling mean shifted left
by `window` (the code of line 220) is `1/4`, not the mean of the `window`
samples starting at the sample's own position shifted back by
`window / 2` positions (which is `0`): the two descriptions are not
equivalent for every window size. -/
theorem C5_counterexample :
    ¬ ((smoothShift exSpike 4).getD 3 none =
        some (windowSum exSpike (3 + 4 / 2) 4 / (4 : ℚ))) := by
  rw [smoothShift_getD_of_lt (by decide)]
  simp only [Option.some.injEq, windowSum, exSpike]
  norm_num

/-- C5 amended: for every sequence and window, the smoothed value at a
defined position `i` equals the mean of the `window` samples starting at
the sample's own position shifted back by **one** position (the window
starting at `i + 1`) — which is the right-aligned rolling mean of width
`window` shifted left by `window` positions.  (Equality with a
`window / 2`-shift holds only when `window = 2`.) -/
theorem C5_centered_amended (xs : List ℚ) (w i : ℕ) (h : i + w < xs.length) :
    (smoothShift xs w).getD i none = some (windowSum xs (i + 1) w / (w : ℚ)) :=
  smoothShift_getD_of_lt h

theorem C5_centered_amended_witness :
    0 + 2 < exSamples.length ∧
      (smoothShift exSamples 2).getD 0 none =
        some (windowSum exSamples (0 + 1) 2 / (2 : ℚ)) :=
  ⟨by decide, C5_centered_amended exSamples 2 0 (by decide)⟩

/-- C6 counterexample: for a three-sample input with `window = 2`, the
first output position (claimed to be one of the first `window - 1`
undefined boundary positions) is in fact defined (it holds `1/2`), while
the middle position (claimed defined) is undefined: the undefined positions
are not the first and last `window - 1` ones. -/
theorem C6_counterexample :
    (smoothShift exSamples 2).getD 0 none = some (1 / 2) ∧
      (smoothShift exSamples 2).getD 1 none = none := by
  constructor
  · rw [smoothShift_getD_of_lt (by decide)]
    simp only [Option.some.injEq, windowSum, exSamples]
    norm_num
  · exact (smoothShift_none_iff (by decide)).2 (by decide)

/-- C6 amended: the smoother's output length always equals the (filtered,
sorted) input length; position `i` is undefined exactly when `i + window`
falls off the end — i.e. exactly the **last** `min(window, length)`
positions are undefined, none at the start — and when fewer than `window`
samples are available every position is undefined, without an error. -/
theorem C6_boundary_amended (xs : List ℚ) (w i : ℕ) (hi : i < xs.length) :
    (smoothShift xs w).length = xs.length ∧
      ((smoothShift xs w).getD i none = none ↔ xs.length ≤ i + w) ∧
      (xs.length < w → (smoothShift xs w).getD i none = none) :=
  ⟨smoothShift_length xs w, smoothShift_none_iff hi,
    fun h => (smoothShift_none_iff hi).2 (by omega)⟩

theorem C6_boundary_amended_witness :
    0 < exSamples.length ∧
      ((smoothShift exSamples 2).length = exSamples.length ∧
        ((smoothShift exSamples 2).getD 0 none = none ↔ exSamples.length ≤ 0 + 2) ∧
        (exSamples.length < 2 → (smoothShift exSamples 2).getD 0 none = none)) :=
  ⟨by decide, C6_boundary_amended exSamples 2 0 (by decide)⟩

/-- Summing occurrence counts of natural numbers over any deduplicated
cover of a list's members gives the list's length. -/
theorem sum_count_nat (F : List ℕ) (s : Finset ℕ)
    (hcover : ∀ a ∈ F, a ∈ s) : (s.sum fun a => F.count a) = F.length := by
  induction F with
  | nil => simp
  | cons x F ih =>
    have hx : x ∈ s := hcover x (List.mem_cons_self x F)
    have hsplit : (s.sum fun a => (x :: F).count a) =
        (s.sum fun a => F.count a) + s.sum fun a => if x = a then 1 else 0 := by
      rw [← Finset.sum_add_distrib]
      refine Finset.sum_congr rfl fun a _ => ?_
      rw [List.count_cons]
      congr 1
      simp
    have hone : (s.sum fun a => if x = a then 1 else 0) = 1 := by
      rw [Finset.sum_ite_eq s x fun _ => 1, if_pos hx]
    rw [hsplit, hone, ih fun a ha => hcover a (List.mem_cons_of_mem x ha)]
    simp [Nat.add_comm]

/-- C7: the final ElementCounts values sum (over every element that occurs)
to the total number of atoms across all processed batches, and each
element's final value is the **sum** of its per-batch counts — counts from
different batches accumulate and are never overwritten. -/
theorem C7_atom_counts (batchAtoms : List (List ℕ)) :
    (∑ e ∈ batchAtoms.flatten.toFinset, atomsPerElem batchAtoms e) =
        (batchAtoms.map List.length).sum ∧
      ∀ e, atomsPerElem batchAtoms e = (batchAtoms.map fun b => b.count e).sum := by
  refine ⟨?_, atomsPerElem_eq batchAtoms⟩
  have h1 : ∀ e, atomsPerElem batchAtoms e = batchAtoms.flatten.count e := by
    intro e
    rw [atomsPerElem_eq]
    exact (List.count_flatten e batchAtoms).symm
  rw [Finset.sum_congr rfl fun e _ => h1 e,
    sum_count_nat _ _ fun a ha => List.mem_toFinset.2 ha,
    List.length_flatten]

/-- Two attention edges with the unordered pair `{H, C}` sharing the same
distance but carrying different weights. -/
def c8Edges : List Edge := [⟨1, 6, 1/5, 1⟩, ⟨1, 6, 2/5, 1⟩]

/-- C8 counterexample: the argsort contract of `torch.argsort` with its
default `stable=False` admits, for the equal-distance selection above, the
permutation `[1, 0]`, which is a valid distance-ascending ordering yet does
**not** keep equal-distance samples in their original relative order: the
code does not guarantee a stable sort. -/
theorem C8_counterexample :
    IsArgsort ((selectPairs c8Edges 1 6).map Edge.dist) [1, 0] ∧
      ¬ (([1, 0] : List ℕ).Pairwise fun a b =>
          ((selectPairs c8Edges 1 6).map Edge.dist).getD a 0 =
              ((selectPairs c8Edges 1 6).map Edge.dist).getD b 0 → a ≤ b) := by
  decide

/-- C8 amended: the mask selects exactly the samples whose unordered
element pair equals `{element_a, element_b}` (both directed orderings
included), and the selection is then put in distance-ascending order by
some admissible argsort permutation — but the relative order of
equal-distance samples is not guaranteed (the argsort is not requested to
be stable). -/
theorem C8_select_sort_amended (edges : List Edge) (z1 z2 : ℕ) :
    selectPairs edges z1 z2 =
        edges.filter (fun e => decide (({e.src, e.tgt} : Multiset ℕ) = {z1, z2})) ∧
      ∃ p, IsArgsort ((selectPairs edges z1 z2).map Edge.dist) p := by
  refine ⟨?_, exists_argsort _⟩
  unfold selectPairs
  refine List.filter_congr fun e he => ?_
  rw [Bool.eq_iff_iff, pairMask_iff]
  simp

/-- C9: aggregation is a function of the input multisets — running it on
any reordering of the edges, the reference edges and the batches (hence in
any batch order, or twice on the same input) yields identical ElementSet,
identical matrices (hence identical defined/zero structure) and identical
atom counts; in the exact rational model the matrix values are equal
outright, not merely within tolerance. -/
theorem C9_deterministic {e1 e2 : List Edge} {r1 r2 : List (ℕ × ℕ)}
    {b1 b2 : List (List ℕ)} (he : e1.Perm e2) (hr : r1.Perm r2)
    (hb : b1.Perm b2) :
    aggregate e1 r1 b1 = aggregate e2 r2 b2 := by
  have h1 : aggPairs e1 = aggPairs e2 := aggPairs_perm he
  have h2 : elemSet e1 = elemSet e2 := elemSet_perm he
  have h3 : keyCheck e1 r1 = keyCheck e2 r2 := keyCheck_perm he hr
  have h4 : savedZs e1 = savedZs e2 := by
    unfold savedZs nElems
    rw [h1, h2]
  have h5 : attnMatrix e1 = attnMatrix e2 := by
    funext i j
    unfold attnMatrix nElems
    rw [scatterMean_perm he, h2]
  have h6 : refSrcElems r1 = refSrcElems r2 := refSrcElems_perm hr
  have h7 : bondCell e1 r1 = bondCell e2 r2 := bondCell_perm he hr
  have h8 : atomsPerElem b1 = atomsPerElem b2 := atomsPerElem_perm hb
  unfold aggregate nElems
  rw [h1, h2, h3, h4, h5, h6, h7, h8]

theorem C9_deterministic_witness :
    exEdges.Perm exEdges.reverse ∧ exRefs.Perm exRefs.reverse ∧
      exBatches.Perm exBatches.reverse ∧
      aggregate exEdges exRefs exBatches =
        aggregate exEdges.reverse exRefs.reverse exBatches.reverse :=
  ⟨(List.reverse_perm exEdges).symm, (List.reverse_perm exRefs).symm,
    (List.reverse_perm exBatches).symm,
    C9_deterministic (List.reverse_perm exEdges).symm
      (List.reverse_perm exRefs).symm (List.reverse_perm exBatches).symm⟩

end AttnWeights
